import Mathlib

/-!
Verification of the character n-gram finder (finder.py).

The program turns a raw text into a cleaned character stream
(preprocess_text), extracts fixed-length character windows filtered by a
split set (generate_character_ngrams), ranks them by frequency
(Counter.most_common inside most_common_ngrams) and counts, for every pair
of ranked grams, how often the second gram starts exactly where an
occurrence of the first one ends (count_ngram_combinations).

Shallow embedding conventions:
- a character is its Unicode code point, a `Nat`; a string is a `List Nat`;
- Python `str.lower()` is modelled as ASCII case folding (`lowerChar`), which
  is exact on the ASCII inputs the development evaluates;
- Python `text[i : i + k]` is `(text.drop i).take k`, which clamps at the
  end of the list exactly as Python slicing does;
- `range(len(text) - k + 1)` is `List.range (text.length + 1 - k)`:
  truncated Nat subtraction yields the same `max 0 (len - k + 1)` count of
  offsets as Python's empty range on a negative argument;
- the configuration dictionary loaded by `json.load` (finder.py lines 9-11)
  is the record `Config`; the loader performs no validation, so `mkConfig`
  is total and merely stores the given field values;
- `Counter(xs).most_common(k)` is modelled by `most_common`: the distinct
  values of `xs` in first-appearance (insertion) order, sorted by the total
  order "larger count first, ties by smaller first index in `xs`", then
  truncated to `k`.  This is exactly the documented behaviour of
  `Counter.most_common` (descending count, insertion-ordered ties), stated
  as a sort by a total key so that the result is characterised uniquely;
- the `break` in the adjacency loop of `count_ngram_combinations`
  (finder.py line 104) is modelled by `adjLoop`, whose recursion stops and
  returns the count accumulated so far when an offset lands at the end of
  the stream;
- the Python dict returned by `count_ngram_combinations` is an association
  list whose entries are produced in the same nested loop order.
-/

namespace Finder

/-- ASCII case folding of one character: the model of Python `str.lower`
restricted to ASCII (65..90 are A..Z, folded to 97..122 = a..z). -/
def lowerChar (c : Nat) : Nat := if 65 ≤ c ∧ c ≤ 90 then c + 32 else c

/-- Case folding of a whole string (Python `str.lower`). -/
def lowerStr (s : List Nat) : List Nat := s.map lowerChar

/-- The configuration dictionary of finder.py (loaded from config.json,
lines 9-11).  Window lengths and the result cap are kept as integers so
that ill-formed (non-positive) values are representable, as they are in
the JSON file. -/
structure Config where
  allowed_characters : List Nat
  characters_to_replace : List Nat
  replacement_character : Nat
  characters_to_skip : List Nat
  characters_to_split : List Nat
  case_sensitive : Bool
  n : Int
  m : Int
  top_n : Int
deriving DecidableEq

/-- Construction of the configuration, the model of `json.load` at
finder.py lines 9-11: the source performs no validation whatsoever, so the
constructor is total and stores the given field values unchanged. -/
def mkConfig (allowed_characters characters_to_replace : List Nat)
    (replacement_character : Nat) (characters_to_skip characters_to_split : List Nat)
    (case_sensitive : Bool) (n m top_n : Int) : Config :=
  ⟨allowed_characters, characters_to_replace, replacement_character,
    characters_to_skip, characters_to_split, case_sensitive, n, m, top_n⟩

/-- Conditional case folding of one character: `preprocess_text` lowers the
text only when case sensitivity is turned off (finder.py lines 23-24). -/
def foldChar : Bool → Nat → Nat
  | true, ch => ch
  | false, ch => lowerChar ch

/-- Conditional case folding of a character set or of the text (finder.py
lines 23-27). -/
def foldSet : Bool → List Nat → List Nat
  | true, s => s
  | false, s => lowerStr s

/-- The per-character replacement rule of `preprocess_text` (finder.py
lines 30-39): a character of the allowed set is kept, otherwise a character
of the replace set becomes the replacement character, otherwise it is
kept. -/
def ruleChar (allowed toReplace : List Nat) (repl : Nat) (ch : Nat) : Nat :=
  if ch ∈ allowed then ch
  else if ch ∈ toReplace then repl
  else ch

/-- The body of `preprocess_text` after the conditional case folding:
the replacement pass (finder.py lines 30-39) followed by the skip pass
(line 42). -/
def applyRules (allowed toReplace : List Nat) (repl : Nat) (toSkip : List Nat)
    (text : List Nat) : List Nat :=
  (text.map (ruleChar allowed toReplace repl)).filter fun ch => decide (ch ∉ toSkip)

/-- `preprocess_text` (finder.py lines 14-44): optional case folding of the
text and of the allowed/replace/skip sets, then replacement, then skip
removal.  The split set and the replacement character are not folded,
exactly as in the source. -/
def preprocess_text (cfg : Config) (text : List Nat) : List Nat :=
  applyRules (foldSet cfg.case_sensitive cfg.allowed_characters)
    (foldSet cfg.case_sensitive cfg.characters_to_replace)
    cfg.replacement_character
    (foldSet cfg.case_sensitive cfg.characters_to_skip)
    (foldSet cfg.case_sensitive text)

/-- Python `text[i : i + k]`. -/
def window (text : List Nat) (i k : Nat) : List Nat := (text.drop i).take k

/-- The window extraction of `generate_character_ngrams`, parameterised by
the split set it reads from the configuration: every offset of
`range(len(text) - n + 1)` whose window contains no split character
contributes its window (finder.py lines 50-54). -/
def splitWindows (split : List Nat) (text : List Nat) (n : Nat) : List (List Nat) :=
  ((List.range (text.length + 1 - n)).filter fun i =>
      !((window text i n).any fun ch => decide (ch ∈ split))).map
    fun i => window text i n

/-- `generate_character_ngrams` (finder.py lines 47-54).  It reads
`characters_to_split` from the configuration as it is, without any case
folding. -/
def generate_character_ngrams (cfg : Config) (text : List Nat) (n : Nat) :
    List (List Nat) :=
  splitWindows cfg.characters_to_split text n

/-- The distinct values of a list in first-appearance order: the key order
of a Python `Counter` built from the list. -/
def insertionKeys {α : Type} [DecidableEq α] : List α → List α
  | [] => []
  | x :: xs => x :: insertionKeys (xs.filter fun y => y != x)
termination_by l => l.length
decreasing_by
simp only [List.length_cons]
exact Nat.lt_succ_of_le (List.length_filter_le _ _)

/-- Number of occurrences of a value in a list: the count a Python
`Counter` stores for it. -/
def countOcc {α : Type} [DecidableEq α] (l : List α) (a : α) : Nat :=
  l.countP fun x => decide (x = a)

/-- Index of the first appearance of a value in a list. -/
def firstIdx {α : Type} [DecidableEq α] (l : List α) (a : α) : Nat :=
  l.findIdx fun x => decide (x = a)

/-- The comparison `Counter.most_common` sorts by: larger count first and,
among equal counts, the value whose first appearance in the input comes
first.  On distinct input values this is a total order, so it characterises
the stable-by-insertion-order descending sort uniquely. -/
def rankLE {α : Type} [DecidableEq α] (l : List α) (a b : α) : Bool :=
  decide (countOcc l b < countOcc l a ∨
    (countOcc l a = countOcc l b ∧ firstIdx l a ≤ firstIdx l b))

/-- `Counter(l).most_common(topn)` (finder.py lines 72-78): the distinct
values of `l`, sorted by descending count with ties in first-appearance
order, truncated to the first `topn`. -/
def most_common {α : Type} [DecidableEq α] (l : List α) (topn : Nat) : List α :=
  ((insertionKeys l).mergeSort (rankLE l)).take topn

/-- The recorded start offsets of gram `g` of length `k` in the stream: the
position index built by the scans at finder.py lines 89-97, in ascending
offset order. -/
def posFor (text : List Nat) (k : Nat) (g : List Nat) : List Nat :=
  (List.range (text.length + 1 - k)).filter fun i => window text i k == g

/-- The inner loop of `count_ngram_combinations` (finder.py lines 101-106):
walk the recorded offsets of the n-gram in order; at an offset whose end
reaches the end of the stream the loop `break`s, returning the count
accumulated so far; otherwise the window of length `m` starting at the end
of the n-gram is compared with `b`. -/
def adjLoop (text : List Nat) (n m : Nat) (b : List Nat) : List Nat → Nat
  | [] => 0
  | p :: ps =>
    if p + n = text.length then 0
    else (if window text (p + n) m == b then 1 else 0) + adjLoop text n m b ps

/-- `count_ngram_combinations` (finder.py lines 83-108): the dict keyed by
every (n-gram, m-gram) pair, as an association list produced in the same
nested loop order. -/
def count_ngram_combinations (text : List Nat) (n_grams m_grams : List (List Nat))
    (n m : Nat) : List ((List Nat × List Nat) × Nat) :=
  n_grams.flatMap fun a => m_grams.map fun b =>
    ((a, b), adjLoop text n m b (posFor text n a))

/-- The skip pass of `preprocess_text` on a single character: characters of
the skip set are removed (finder.py line 42). -/
def skipFilter (toSkip : List Nat) (ch : Nat) : Option Nat :=
  if ch ∈ toSkip then none else some ch

/-- The whole of `preprocess_text` on a single character: conditional case
folding, the replacement rule, then the skip pass.  `preprocess_text` is
the `filterMap` of this function (proved below). -/
def procChar (cfg : Config) (ch : Nat) : Option Nat :=
  skipFilter (foldSet cfg.case_sensitive cfg.characters_to_skip)
    (ruleChar (foldSet cfg.case_sensitive cfg.allowed_characters)
      (foldSet cfg.case_sensitive cfg.characters_to_replace)
      cfg.replacement_character
      (foldChar cfg.case_sensitive ch))

/-- The character rule exactly as claim C5 words it: a character in the
allowed set is kept unchanged even if it is also in the replace set;
otherwise a character in the replace set is substituted by the replacement
character; otherwise the character is kept unchanged. -/
def specNormChar (allowed toReplace : List Nat) (repl : Nat) (ch : Nat) : Nat :=
  if ch ∈ allowed then ch
  else if ch ∈ toReplace then repl
  else ch

/-- The extractor as claim C4 words it: in case-insensitive mode the split
set, like every other character-set field, would be case folded before
use.  This is the claim-side definition, to be compared with
`generate_character_ngrams`, which does not fold the split set. -/
def generate_ngrams_foldedSplit (cfg : Config) (text : List Nat) (n : Nat) :
    List (List Nat) :=
  splitWindows (foldSet cfg.case_sensitive cfg.characters_to_split) text n

/-- Well-formedness of a configuration as the specification states it
(positive window lengths, non-negative result cap; in this model every
character-set entry is a single character by construction). -/
def wellFormed (cfg : Config) : Prop :=
  1 ≤ cfg.n ∧ 1 ≤ cfg.m ∧ 0 ≤ cfg.top_n

/-- A plain case-sensitive configuration with empty character sets. -/
def cfgPlain : Config := mkConfig [] [] 120 [] [] true 1 1 5

/-- Case-insensitive configuration whose split set holds an upper-case
letter (65 = A); the replacement character is 120 = x. -/
def cfgSplitUpper : Config := mkConfig [] [] 120 [] [65] false 1 1 5

/-- Case-insensitive configuration that replaces 98 = b with the
upper-case replacement character 88 = X. -/
def cfgReplUpper : Config := mkConfig [] [98] 88 [] [] false 1 1 5

/-- Case-insensitive configuration that replaces 98 = b with the
lower-case replacement character 120 = x. -/
def cfgReplLower : Config := mkConfig [] [98] 120 [] [] false 1 1 5

/-- An ill-formed configuration: window length n = 0. -/
def cfgBad : Config := mkConfig [] [] 120 [] [] true 0 1 5

/-- ASCII case folding is idempotent. -/
theorem lowerChar_idem (c : Nat) : lowerChar (lowerChar c) = lowerChar c := by
  by_cases h : 65 ≤ c ∧ c ≤ 90
  · have h1 : lowerChar c = c + 32 := if_pos h
    have h2 : lowerChar (c + 32) = c + 32 := if_neg (by omega)
    rw [h1, h2]
  · have h1 : lowerChar c = c := if_neg h
    rw [h1, h1]

/-- Conditional case folding is idempotent. -/
theorem foldChar_idem (cs : Bool) (c : Nat) : foldChar cs (foldChar cs c) = foldChar cs c := by
  cases cs <;> simp [foldChar, lowerChar_idem]

/-- Every window of the extractor has exactly the window length, since the
offsets stop early enough for a full slice. -/
theorem length_window_of_lt (text : List Nat) (i k : Nat)
    (h : i < text.length + 1 - k) : (window text i k).length = k := by
  simp only [window, List.length_take, List.length_drop]
  omega

/-- Claim C9: for every configuration, text and window length n ≥ 1, every
element of the list returned by generate_character_ngrams has length
exactly n; no shorter trailing windows are ever emitted. -/
theorem C9_window_lengths (cfg : Config) (text : List Nat) (n : Nat)
    (hn : 1 ≤ n) : ∀ g ∈ generate_character_ngrams cfg text n, g.length = n := by
  intro g hg
  obtain ⟨i, hi, rfl⟩ := List.mem_map.mp hg
  have hr : i ∈ List.range (text.length + 1 - n) := (List.mem_filter.mp hi).1
  exact length_window_of_lt text i n (List.mem_range.mp hr)

theorem C9_window_lengths_witness : ([97] : List Nat).length = 1 :=
  C9_window_lengths cfgPlain [97, 98] 1 (by decide) [97] (by decide)

/-- Claim C10: in case-insensitive mode the replacement character is not
case-folded: for the configuration cfgReplUpper (case sensitivity off,
upper-case replacement character X = 88) and the input text "b", the
cleaned stream contains that upper-case character, so the cleaned stream is
not entirely lower case. -/
theorem C10_replacement_not_folded :
    cfgReplUpper.case_sensitive = false ∧
    (65 ≤ cfgReplUpper.replacement_character ∧
      cfgReplUpper.replacement_character ≤ 90) ∧
    cfgReplUpper.replacement_character ∈ preprocess_text cfgReplUpper [98] ∧
    preprocess_text cfgReplUpper [98] ≠ lowerStr (preprocess_text cfgReplUpper [98]) := by
  decide

/-- Claim C6: for every stream, window length L ≥ 1 and split set: a window
containing a split character never appears in the output; every clean
window at a valid offset does appear (stride 1, no offsets are jumped); an
empty split set yields exactly max(0, len - L + 1) windows; and a stream
shorter than L yields the empty list. -/
theorem C6_split_windows (cfg : Config) (text : List Nat) (L : Nat)
    (hL : 1 ≤ L) :
    (∀ g ∈ generate_character_ngrams cfg text L,
      ∀ ch ∈ g, ch ∉ cfg.characters_to_split) ∧
    (∀ i, i + L ≤ text.length →
      (∀ ch ∈ window text i L, ch ∉ cfg.characters_to_split) →
      window text i L ∈ generate_character_ngrams cfg text L) ∧
    (cfg.characters_to_split = [] →
      ((generate_character_ngrams cfg text L).length : Int) =
        max 0 ((text.length : Int) - L + 1)) ∧
    (text.length < L → generate_character_ngrams cfg text L = []) := by
  refine ⟨?_, ?_, ?_, ?_⟩
  · intro g hg ch hch
    obtain ⟨i, hi, rfl⟩ := List.mem_map.mp hg
    have hp := (List.mem_filter.mp hi).2
    simp only [Bool.not_eq_eq_eq_not, Bool.not_true, List.any_eq_false,
      decide_eq_true_eq] at hp
    exact hp ch hch
  · intro i hiL hclean
    refine List.mem_map.mpr ⟨i, List.mem_filter.mpr ⟨List.mem_range.mpr (by omega), ?_⟩, rfl⟩
    simp only [Bool.not_eq_eq_eq_not, Bool.not_true, List.any_eq_false,
      decide_eq_true_eq]
    exact hclean
  · intro hsp
    have hfil : (List.range (text.length + 1 - L)).filter
        (fun i => !((window text i L).any fun ch =>
          decide (ch ∈ cfg.characters_to_split))) =
        List.range (text.length + 1 - L) := by
      apply List.filter_eq_self.mpr
      intro a _
      simp [hsp]
    simp only [generate_character_ngrams, splitWindows, hfil, List.length_map,
      List.length_range]
    omega
  · intro hlt
    have h0 : text.length + 1 - L = 0 := by omega
    simp [generate_character_ngrams, splitWindows, h0]

theorem C6_split_windows_witness :
    generate_character_ngrams cfgPlain [97] 2 = [] :=
  (C6_split_windows cfgPlain [97] 2 (by decide)).2.2.2 (by decide)

/-- Claim C4 fails on the code: the extractor does not case-fold the split
set.  With cfgSplitUpper (case sensitivity off, split set {A}) and input
text "a", the pipeline keeps the window "a" whereas the claim-side
pipeline, which folds the split set like every other character-set field,
would exclude it. -/
theorem C4_counterexample :
    cfgSplitUpper.case_sensitive = false ∧
    generate_character_ngrams cfgSplitUpper (preprocess_text cfgSplitUpper [97]) 1 ≠
      generate_ngrams_foldedSplit cfgSplitUpper (preprocess_text cfgSplitUpper [97]) 1 := by
  decide

/-- Claim C4 amended: when case-insensitive mode is configured, the input
text and the allowed, replace and skip sets are folded to lower case before
the replacement and skip passes, but the split set is not folded: the
extractor uses it exactly as configured. -/
theorem C4_amended (cfg : Config) (text : List Nat) (n : Nat)
    (h : cfg.case_sensitive = false) :
    preprocess_text cfg text =
      applyRules (lowerStr cfg.allowed_characters) (lowerStr cfg.characters_to_replace)
        cfg.replacement_character (lowerStr cfg.characters_to_skip) (lowerStr text) ∧
    generate_character_ngrams cfg text n = splitWindows cfg.characters_to_split text n := by
  constructor
  · rw [preprocess_text, h]
    rfl
  · rfl

theorem C4_amended_witness :
    generate_character_ngrams cfgSplitUpper [97] 1 =
      splitWindows cfgSplitUpper.characters_to_split [97] 1 :=
  (C4_amended cfgSplitUpper [97] 1 rfl).2

/-- Claim C8 fails on the code: the configuration is loaded by json.load
without any validation, so an ill-formed configuration (here window length
n = 0) is accepted, and the pipeline runs on it and produces degenerate
output (three empty windows from a two-character text) instead of being
rejected. -/
theorem C8_counterexample :
    ¬ wellFormed cfgBad ∧
    mkConfig [] [] 120 [] [] true 0 1 5 = cfgBad ∧
    generate_character_ngrams cfgBad [97, 98] 0 = [[], [], []] := by
  refine ⟨?_, rfl, by decide⟩
  intro h
  simp [wellFormed, cfgBad, mkConfig] at h

/-- Claim C8 amended: the core performs no configuration validation at all;
construction of the configuration is total and stores the given field
values unchanged, for well-formed and ill-formed values alike, and the
pipeline then computes on whatever was stored. -/
theorem C8_amended (a r : List Nat) (p : Nat) (s sp : List Nat) (cs : Bool)
    (n m t : Int) :
    mkConfig a r p s sp cs n m t = ⟨a, r, p, s, sp, cs, n, m, t⟩ := rfl

/-- Claim C5: the normalizer is exactly the claim's per-character rule
(allowed-set membership first, then replace-set membership, else identity)
mapped over the folded text and followed by removal of the skip-set
characters; characters in both the allowed and the replace set are kept
unchanged; and the output preserves the relative order of the surviving
characters (it is a sublist of the mapped intermediate result). -/
theorem C5_normalizer_rule (cfg : Config) (text : List Nat) :
    preprocess_text cfg text =
      ((foldSet cfg.case_sensitive text).map
          (specNormChar (foldSet cfg.case_sensitive cfg.allowed_characters)
            (foldSet cfg.case_sensitive cfg.characters_to_replace)
            cfg.replacement_character)).filter
        (fun ch => decide (ch ∉ foldSet cfg.case_sensitive cfg.characters_to_skip)) ∧
    List.map (specNormChar (foldSet cfg.case_sensitive cfg.allowed_characters)
        (foldSet cfg.case_sensitive cfg.characters_to_replace)
        cfg.replacement_character)
      ((foldSet cfg.case_sensitive cfg.allowed_characters).filter fun ch =>
        decide (ch ∈ foldSet cfg.case_sensitive cfg.characters_to_replace)) =
      (foldSet cfg.case_sensitive cfg.allowed_characters).filter (fun ch =>
        decide (ch ∈ foldSet cfg.case_sensitive cfg.characters_to_replace)) ∧
    (preprocess_text cfg text).Sublist
      ((foldSet cfg.case_sensitive text).map
        (specNormChar (foldSet cfg.case_sensitive cfg.allowed_characters)
          (foldSet cfg.case_sensitive cfg.characters_to_replace)
          cfg.replacement_character)) := by
  refine ⟨rfl, ?_, List.filter_sublist _⟩
  have hmap : ∀ ch ∈ (foldSet cfg.case_sensitive cfg.allowed_characters).filter
      (fun ch => decide (ch ∈ foldSet cfg.case_sensitive cfg.characters_to_replace)),
      specNormChar (foldSet cfg.case_sensitive cfg.allowed_characters)
        (foldSet cfg.case_sensitive cfg.characters_to_replace)
        cfg.replacement_character ch = ch := by
    intro ch hch
    have hA : ch ∈ foldSet cfg.case_sensitive cfg.allowed_characters :=
      (List.mem_filter.mp hch).1
    simp [specNormChar, hA]
  calc List.map _ _ = List.map id ((foldSet cfg.case_sensitive cfg.allowed_characters).filter
          fun ch => decide (ch ∈ foldSet cfg.case_sensitive cfg.characters_to_replace)) :=
        List.map_congr_left hmap
    _ = _ := List.map_id _

/-- Unfolding of applyRules over a cons cell. -/
theorem applyRules_eq_filterMap (A R : List Nat) (p : Nat) (S t : List Nat) :
    applyRules A R p S t =
      t.filterMap fun ch => skipFilter S (ruleChar A R p ch) := by
  induction t with
  | nil => rfl
  | cons c t ih =>
    have hLHS : applyRules A R p S (c :: t) =
        if decide (ruleChar A R p c ∉ S) = true then
          ruleChar A R p c :: applyRules A R p S t
        else applyRules A R p S t := by
      simp only [applyRules, List.map_cons, List.filter_cons]
    by_cases hs : ruleChar A R p c ∈ S
    · rw [hLHS, if_neg (by simp [hs]),
        @List.filterMap_cons_none _ _ (fun ch => skipFilter S (ruleChar A R p ch)) c t
          (if_pos hs)]
      exact ih
    · rw [hLHS, if_pos (by simp [hs]),
        @List.filterMap_cons_some _ _ (fun ch => skipFilter S (ruleChar A R p ch)) c t
          (ruleChar A R p c) (if_neg hs)]
      rw [ih]

/-- The normalizer is the per-character pipeline procChar mapped over the
raw text with removal of skipped characters. -/
theorem preprocess_eq_filterMap (cfg : Config) (text : List Nat) :
    preprocess_text cfg text = text.filterMap (procChar cfg) := by
  unfold preprocess_text procChar
  rw [applyRules_eq_filterMap]
  cases hcs : cfg.case_sensitive
  · simp only [foldSet, lowerStr]
    rw [List.filterMap_map]
    rfl
  · rfl

/-- One pass of the per-character pipeline leaves its own outputs
unchanged, provided the replacement character itself passes through
unchanged. -/
theorem procStep_out (cs : Bool) (A R : List Nat) (p : Nat) (S : List Nat)
    (c' c : Nat)
    (hr : skipFilter S (ruleChar A R p (foldChar cs p)) = some p)
    (h : skipFilter S (ruleChar A R p (foldChar cs c')) = some c) :
    skipFilter S (ruleChar A R p (foldChar cs c)) = some c := by
  unfold skipFilter at h
  by_cases hS : ruleChar A R p (foldChar cs c') ∈ S
  · rw [if_pos hS] at h
    exact absurd h (by simp)
  · rw [if_neg hS] at h
    have hc : ruleChar A R p (foldChar cs c') = c := Option.some.inj h
    by_cases hA : foldChar cs c' ∈ A
    · have hv : ruleChar A R p (foldChar cs c') = foldChar cs c' := by
        simp [ruleChar, hA]
      have hcc : c = foldChar cs c' := by rw [← hc, hv]
      subst hcc
      rw [foldChar_idem, hv]
      rw [hv] at hS
      unfold skipFilter
      rw [if_neg hS]
    · by_cases hR : foldChar cs c' ∈ R
      · have hv : ruleChar A R p (foldChar cs c') = p := by
          simp [ruleChar, hA, hR]
        have hcc : c = p := by rw [← hc, hv]
        subst hcc
        exact hr
      · have hv : ruleChar A R p (foldChar cs c') = foldChar cs c' := by
          simp [ruleChar, hA, hR]
        have hcc : c = foldChar cs c' := by rw [← hc, hv]
        subst hcc
        rw [foldChar_idem, hv]
        rw [hv] at hS
        unfold skipFilter
        rw [if_neg hS]

/-- A filterMap whose function fixes every member of the list is the
identity. -/
theorem filterMap_fixed {f : Nat → Option Nat} {l : List Nat}
    (h : ∀ c ∈ l, f c = some c) : l.filterMap f = l := by
  induction l with
  | nil => rfl
  | cons c t ih =>
    rw [List.filterMap_cons, h c (List.mem_cons_self c t),
      ih fun x hx => h x (List.mem_cons_of_mem c hx)]

/-- Claim C7: normalization is idempotent whenever the replacement
character passes through the normalizer unchanged (the claim's reading of
"the sets are disjoint in the expected way": a replacement-produced
character is left alone by a second pass).  Every configuration whose
replacement character is fold-invariant, not replaced away and not skipped
satisfies the hypothesis; in particular every case-sensitive configuration
whose replacement character is not in the skip set does. -/
theorem C7_normalize_idempotent (cfg : Config) (text : List Nat)
    (hr : procChar cfg cfg.replacement_character =
      some cfg.replacement_character) :
    preprocess_text cfg (preprocess_text cfg text) = preprocess_text cfg text := by
  rw [preprocess_eq_filterMap cfg (preprocess_text cfg text)]
  apply filterMap_fixed
  intro c hc
  rw [preprocess_eq_filterMap] at hc
  obtain ⟨c', _, h⟩ := List.mem_filterMap.mp hc
  exact procStep_out cfg.case_sensitive _ _ _ _ c' c hr h

theorem C7_normalize_idempotent_witness :
    preprocess_text cfgReplLower (preprocess_text cfgReplLower [98, 99]) =
      preprocess_text cfgReplLower [98, 99] :=
  C7_normalize_idempotent cfgReplLower [98, 99] (by decide)

/-- Every recorded offset leaves room for the full n-gram: the scan stops
n characters before the end of the stream. -/
theorem posFor_add_le (text : List Nat) (k : Nat) (g : List Nat) (p : Nat)
    (hp : p ∈ posFor text k g) : p + k ≤ text.length := by
  have hr := (List.mem_filter.mp hp).1
  have := List.mem_range.mp hr
  omega

/-- The recorded offsets are in strictly ascending order. -/
theorem posFor_pairwise (text : List Nat) (k : Nat) (g : List Nat) :
    (posFor text k g).Pairwise (· < ·) :=
  (List.pairwise_lt_range _).sublist (List.filter_sublist _)

/-- The break in the adjacency loop never loses a match: because the
recorded offsets ascend and every one leaves room for the n-gram, the
offset that reaches the end of the stream (where the loop breaks) is
necessarily the last one, and the empty window there can never equal a
non-empty m-gram.  Hence the loop count is the per-offset count. -/
theorem adjLoop_eq_filter (text : List Nat) (n m : Nat) (b : List Nat)
    (hb : b ≠ []) (ps : List Nat)
    (hle : ∀ p ∈ ps, p + n ≤ text.length) (hlt : ps.Pairwise (· < ·)) :
    adjLoop text n m b ps =
      (ps.filter fun p => window text (p + n) m == b).length := by
  induction ps with
  | nil => rfl
  | cons p tl ih =>
    have hall := (List.pairwise_cons.mp hlt).1
    have htl := (List.pairwise_cons.mp hlt).2
    by_cases h : p + n = text.length
    · have htl0 : tl = [] := by
        cases tl with
        | nil => rfl
        | cons q t =>
          exfalso
          have h1 : p < q := hall q (List.mem_cons_self q t)
          have h2 : q + n ≤ text.length := hle q (List.mem_cons_of_mem p (List.mem_cons_self q t))
          omega
      subst htl0
      have hw : window text (p + n) m = [] := by
        rw [h]
        simp [window, List.drop_length]
      have hpred : (window text (p + n) m == b) = false := by
        rw [hw]
        exact beq_eq_false_iff_ne.mpr fun he => hb he.symm
      rw [show adjLoop text n m b [p] = 0 from by rw [adjLoop, if_pos h],
        List.filter_cons, hpred]
      rfl
    · have ihr := ih (fun q hq => hle q (List.mem_cons_of_mem p hq)) htl
      rw [show adjLoop text n m b (p :: tl) =
          (if window text (p + n) m == b then 1 else 0) + adjLoop text n m b tl from by
            rw [adjLoop, if_neg h],
        List.filter_cons, ihr]
      by_cases hw : (window text (p + n) m == b) = true
      · rw [if_pos hw, if_pos hw, List.length_cons]
        omega
      · rw [if_neg hw, if_neg hw]
        omega

/-- The adjacency loop counts at most one per recorded offset. -/
theorem adjLoop_le_length (text : List Nat) (n m : Nat) (b : List Nat)
    (ps : List Nat) : adjLoop text n m b ps ≤ ps.length := by
  induction ps with
  | nil => exact Nat.le_refl 0
  | cons p tl ih =>
    rw [adjLoop]
    by_cases h : p + n = text.length
    · rw [if_pos h]
      exact Nat.zero_le _
    · rw [if_neg h, List.length_cons]
      by_cases hw : (window text (p + n) m == b) = true
      · rw [if_pos hw]
        omega
      · rw [if_neg hw]
        omega

/-- Claim C1: for every stream and gram lists, every pair (a, b) with a in
the n-gram list and b in the m-gram list (b of the m-gram length m ≥ 1):
the table returned by count_ngram_combinations holds for (a, b) exactly the
number of recorded start offsets p of a whose following slice
stream[p+n : p+n+m] equals b.  An offset with p + n = len(stream)
contributes to no pair (its empty slice never equals b), each offset is
counted independently, and offsets with p + n + m > len(stream) yield a
short, non-matching slice contributing 0 — all three facts are subsumed by
the per-offset filter on the right-hand side. -/
theorem C1_adjacency_count (text : List Nat) (n_grams m_grams : List (List Nat))
    (n m : Nat) (a b : List Nat) (ha : a ∈ n_grams) (hb : b ∈ m_grams)
    (hbl : b.length = m) (hm : 1 ≤ m) :
    (((a, b), ((posFor text n a).filter fun p => window text (p + n) m == b).length)
        ∈ count_ngram_combinations text n_grams m_grams n m) ∧
    ∀ c, ((a, b), c) ∈ count_ngram_combinations text n_grams m_grams n m →
      c = ((posFor text n a).filter fun p => window text (p + n) m == b).length := by
  have hb0 : b ≠ [] := by
    intro h
    rw [h] at hbl
    simp at hbl
    omega
  have key : adjLoop text n m b (posFor text n a) =
      ((posFor text n a).filter fun p => window text (p + n) m == b).length :=
    adjLoop_eq_filter text n m b hb0 (posFor text n a)
      (posFor_add_le text n a) (posFor_pairwise text n a)
  constructor
  · exact List.mem_flatMap.mpr ⟨a, ha, List.mem_map.mpr ⟨b, hb, by rw [key]⟩⟩
  · intro c hc
    obtain ⟨a2, _, hmem⟩ := List.mem_flatMap.mp hc
    obtain ⟨b2, _, heq⟩ := List.mem_map.mp hmem
    obtain ⟨hpair, hcount⟩ := Prod.mk.injEq .. ▸ heq
    obtain ⟨ha2, hb2⟩ := Prod.mk.injEq .. ▸ hpair
    subst ha2
    subst hb2
    rw [← hcount, key]

theorem C1_adjacency_count_witness :
    ((([97], [98]), 2) ∈
      count_ngram_combinations [97, 98, 97, 98] [[97]] [[98]] 1 1) :=
  (C1_adjacency_count [97, 98, 97, 98] [[97]] [[98]] 1 1 [97] [98]
    (by decide) (by decide) (by decide) (by decide)).1

/-- Claim C2: the key set of the table returned by
count_ngram_combinations is exactly the cross product of the two gram
lists (pairs never adjacent are present with count 0), and every count is
at most the minimum of the number of recorded occurrences of its n-gram in
the stream and the stream's length (counts are natural numbers, hence
non-negative by type). -/
theorem C2_table_keys_and_bounds (text : List Nat)
    (n_grams m_grams : List (List Nat)) (n m : Nat) (hn : 1 ≤ n) :
    (∀ a b, (a, b) ∈ (count_ngram_combinations text n_grams m_grams n m).map Prod.fst ↔
      a ∈ n_grams ∧ b ∈ m_grams) ∧
    ∀ e ∈ count_ngram_combinations text n_grams m_grams n m,
      e.2 ≤ min (posFor text n e.1.1).length text.length := by
  constructor
  · intro a b
    constructor
    · intro h
      obtain ⟨e, he, hfst⟩ := List.mem_map.mp h
      obtain ⟨a2, ha2, hmem⟩ := List.mem_flatMap.mp he
      obtain ⟨b2, hb2, heq⟩ := List.mem_map.mp hmem
      rw [← heq] at hfst
      obtain ⟨hA, hB⟩ := Prod.mk.injEq .. ▸ hfst
      rw [← hA]
      rw [← hB]
      exact ⟨ha2, hb2⟩
    · intro h
      exact List.mem_map.mpr
        ⟨((a, b), adjLoop text n m b (posFor text n a)),
          List.mem_flatMap.mpr ⟨a, h.1, List.mem_map.mpr ⟨b, h.2, rfl⟩⟩, rfl⟩
  · intro e he
    obtain ⟨a2, _, hmem⟩ := List.mem_flatMap.mp he
    obtain ⟨b2, _, heq⟩ := List.mem_map.mp hmem
    have hlen : (posFor text n a2).length ≤ text.length := by
      have h1 : (posFor text n a2).length ≤ (List.range (text.length + 1 - n)).length :=
        List.length_filter_le _ _
      rw [List.length_range] at h1
      omega
    rw [← heq]
    exact Nat.le_min.mpr ⟨adjLoop_le_length text n m b2 (posFor text n a2), Nat.le_trans
      (adjLoop_le_length text n m b2 (posFor text n a2)) hlen⟩

theorem C2_table_keys_and_bounds_witness :
    (([97], [98]) ∈
      (count_ngram_combinations [97, 98] [[97]] [[98]] 1 1).map Prod.fst) :=
  ((C2_table_keys_and_bounds [97, 98] [[97]] [[98]] 1 1 (by decide)).1 [97] [98]).mpr
    ⟨by decide, by decide⟩

/-- Membership in the insertion-ordered key list is membership in the
input. -/
theorem mem_insertionKeys {α : Type} [DecidableEq α] (l : List α) (a : α) :
    a ∈ insertionKeys l ↔ a ∈ l := by
  induction l using insertionKeys.induct with
  | case1 => rw [insertionKeys]
  | case2 x xs ih =>
    rw [insertionKeys]
    by_cases hax : a = x
    · subst hax
      simp
    · simp only [List.mem_cons, hax, false_or]
      rw [ih]
      simp [List.mem_filter, hax]

/-- The insertion-ordered key list holds each distinct value once. -/
theorem nodup_insertionKeys {α : Type} [DecidableEq α] (l : List α) :
    (insertionKeys l).Nodup := by
  induction l using insertionKeys.induct with
  | case1 => rw [insertionKeys]; exact List.nodup_nil
  | case2 x xs ih =>
    rw [insertionKeys]
    refine List.nodup_cons.mpr ⟨?_, ih⟩
    intro hx
    have hm := (mem_insertionKeys _ x).mp hx
    simp [List.mem_filter] at hm

/-- On two members of a list, equal first-appearance indices force equal
values. -/
theorem firstIdx_inj {α : Type} [DecidableEq α] (l : List α) (a b : α)
    (ha : a ∈ l) (hb : b ∈ l) (h : firstIdx l a = firstIdx l b) : a = b := by
  induction l with
  | nil => cases ha
  | cons x xs ih =>
    by_cases hxa : x = a
    · by_cases hxb : x = b
      · rw [← hxa, ← hxb]
      · exfalso
        have h1 : firstIdx (x :: xs) a = 0 := by
          simp [firstIdx, List.findIdx_cons, hxa]
        have h2 : firstIdx (x :: xs) b = xs.findIdx (fun y => decide (y = b)) + 1 := by
          simp [firstIdx, List.findIdx_cons, hxb]
        rw [h1, h2] at h
        exact Nat.succ_ne_zero _ h.symm
    · by_cases hxb : x = b
      · exfalso
        have h1 : firstIdx (x :: xs) a = xs.findIdx (fun y => decide (y = a)) + 1 := by
          simp [firstIdx, List.findIdx_cons, hxa]
        have h2 : firstIdx (x :: xs) b = 0 := by
          simp [firstIdx, List.findIdx_cons, hxb]
        rw [h1, h2] at h
        exact Nat.succ_ne_zero _ h
      · have ha2 : a ∈ xs := by
          rcases List.mem_cons.mp ha with h1 | h1
          · exact absurd h1.symm hxa
          · exact h1
        have hb2 : b ∈ xs := by
          rcases List.mem_cons.mp hb with h1 | h1
          · exact absurd h1.symm hxb
          · exact h1
        apply ih ha2 hb2
        have h1 : firstIdx (x :: xs) a = firstIdx xs a + 1 := by
          simp [firstIdx, List.findIdx_cons, hxa]
        have h2 : firstIdx (x :: xs) b = firstIdx xs b + 1 := by
          simp [firstIdx, List.findIdx_cons, hxb]
        rw [h1, h2] at h
        omega

/-- The ranking comparison is total. -/
theorem rankLE_total {α : Type} [DecidableEq α] (l : List α) (a b : α) :
    (rankLE l a b || rankLE l b a) = true := by
  simp only [rankLE, Bool.or_eq_true, decide_eq_true_eq]
  omega

/-- The ranking comparison is transitive. -/
theorem rankLE_trans {α : Type} [DecidableEq α] (l : List α) (a b c : α)
    (h1 : rankLE l a b = true) (h2 : rankLE l b c = true) :
    rankLE l a c = true := by
  simp only [rankLE, decide_eq_true_eq] at h1 h2 ⊢
  omega

/-- Claim C3: the ranker returns at most top_n distinct values (all drawn
from the input), in an order along which occurrence counts never increase
and equal counts are broken by the earlier first appearance in the input;
when fewer distinct values than top_n exist, every input value is
returned; and top_n = 0 yields the empty sequence. -/
theorem C3_ranking (l : List (List Nat)) (topn : Nat) :
    (most_common l topn).length = min topn (insertionKeys l).length ∧
    (most_common l topn).Nodup ∧
    (∀ a ∈ most_common l topn, a ∈ l) ∧
    (most_common l topn).Pairwise (fun a b =>
      countOcc l b < countOcc l a ∨
        (countOcc l a = countOcc l b ∧ firstIdx l a < firstIdx l b)) ∧
    ((insertionKeys l).length ≤ topn → ∀ a ∈ l, a ∈ most_common l topn) ∧
    most_common l 0 = [] := by
  have hmem : ∀ a ∈ most_common l topn, a ∈ l := by
    intro a ha
    have h1 : a ∈ (insertionKeys l).mergeSort (rankLE l) :=
      (List.take_sublist _ _).subset ha
    exact (mem_insertionKeys l a).mp ((List.mergeSort_perm _ _).subset h1)
  have hnodup : (most_common l topn).Nodup := by
    have h1 : ((insertionKeys l).mergeSort (rankLE l)).Nodup :=
      (List.mergeSort_perm (insertionKeys l) (rankLE l)).symm.nodup
        (nodup_insertionKeys l)
    exact h1.sublist (List.take_sublist _ _)
  refine ⟨?_, hnodup, hmem, ?_, ?_, rfl⟩
  · rw [most_common, List.length_take, List.length_mergeSort]
  · have hsorted := List.sorted_mergeSort
      (fun a b c => rankLE_trans l a b c) (fun a b => rankLE_total l a b)
      (insertionKeys l)
    have htake : (most_common l topn).Pairwise (fun a b => rankLE l a b = true) :=
      hsorted.sublist (List.take_sublist _ _)
    have hne : (most_common l topn).Pairwise (fun a b => a ≠ b) := hnodup
    refine (htake.and hne).imp_of_mem ?_
    intro a b hma hmb hab
    have haL : a ∈ l := hmem a hma
    have hbL : b ∈ l := hmem b hmb
    have hle := hab.1
    have hne2 := hab.2
    simp only [rankLE, decide_eq_true_eq] at hle
    rcases hle with hlt | ⟨hcnt, hidx⟩
    · exact Or.inl hlt
    · refine Or.inr ⟨hcnt, Nat.lt_of_le_of_ne hidx fun he => hne2 ?_⟩
      exact firstIdx_inj l a b haL hbL he
  · intro htop a haL
    rw [most_common, List.take_of_length_le (by rw [List.length_mergeSort]; exact htop)]
    exact (List.mergeSort_perm _ _).mem_iff.mpr ((mem_insertionKeys l a).mpr haL)

end Finder
